import Mathlib

/-! Verification of the snb build-system core.

This file gives a shallow embedding, in Lean 4, of the parts of the snb
(ninja-derived) build system that the specification's testable properties
talk about, and proves or refutes those properties against the embedding.

Embedded source files:
* `src/util.cc`          — `CanonicalizePath`, `Fatal`
* `src/build_log.cc`     — `MurmurHash64A`, `BuildLog::LogEntry::HashCommand`,
                           `BuildLog::Load`, `BuildLog::WriteEntry`
* `src/state.cc`         — `Pool::EdgeScheduled` / `EdgeFinished`,
                           `State::AddEdge` / `AddIn` / `AddOut`
* `src/disk_interface.cc`— `RealDiskInterface::Stat`
* `src/clean.cc`         — `Cleaner::CleanDead`, `Cleaner::Remove`

Machine integers are modelled as `Nat` with explicit reduction `% 2^64`
where the C code relies on wrap-around (the hash), and as unbounded `Int`
where the C code never overflows on the inputs considered.  Paths and file
contents are modelled as `List Char`.  Functions that can abort the process
(`Fatal`) return an `Option`, with `none` marking the abort.
-/

namespace Snb

/-! Section: Pool (src/state.cc, lines 22–32)

`Pool::EdgeScheduled` / `Pool::EdgeFinished` update the weighted
`current_use_` counter only when the pool's depth is nonzero. -/

structure Pool where
  depth : Int
  currentUse : Int
  deriving Repr, DecidableEq

/-- Embeds `Pool::EdgeScheduled`: `if (depth_ != 0) current_use_ += edge.weight();` -/
def Pool.edgeScheduled (p : Pool) (weight : Int) : Pool :=
  if p.depth ≠ 0 then { p with currentUse := p.currentUse + weight } else p

/-- Embeds `Pool::EdgeFinished`: `if (depth_ != 0) current_use_ -= edge.weight();` -/
def Pool.edgeFinished (p : Pool) (weight : Int) : Pool :=
  if p.depth ≠ 0 then { p with currentUse := p.currentUse - weight } else p

/-! Section: RealDiskInterface::Stat (src/disk_interface.cc, lines 78–104)

The OS `stat` call is an oracle: it can fail with `ENOENT`/`ENOTDIR`
(file absent), fail with another errno, or succeed returning the
`st_mtim` seconds and nanoseconds fields (both signed). -/

inductive StatResult where
  /-- Embeds `stat` failed with `ENOENT` or `ENOTDIR`. -/
  | absent : StatResult
  /-- Embeds `stat` failed with some other errno, rendered to a message. -/
  | failure (msg : List Char) : StatResult
  /-- Embeds `stat` succeeded; `sec`/`nsec` are the `st_mtim` fields. -/
  | ok (sec nsec : Int) : StatResult

/-- Embeds `RealDiskInterface::Stat`, returning the `TimeStamp` and the error
string (`some` exactly when the code assigns `*err`). -/
def realDiskStat (path : List Char) (r : StatResult) : Int × Option (List Char) :=
  match r with
  | .absent => (0, none)
  | .failure msg =>
      (-1, some (("stat(".toList ++ path ++ "): ".toList) ++ msg))
  | .ok sec nsec =>
      if sec = 0 then (1, none)
      else (sec * 1000000000 + nsec, none)

/-! Section: MurmurHash64A and HashCommand (src/build_log.cc, lines 54–108)

64-bit arithmetic is `Nat` reduced modulo `2^64`.  The input is a byte
list; `HashCommand` feeds the UTF-8/raw bytes of the command string.  The
8-byte chunks are assembled little-endian (the `memcpy` on the
little-endian targets the code runs on). -/

def u64 (n : Nat) : Nat := n % (2 ^ 64)

def murmurSeed : Nat := 0xDECAFBADDECAFBAD

def murmurM : Nat := 0xc6a4a7935bd1e995

def murmurR : Nat := 47

/-- Assemble the first 8 bytes of `l` as a little-endian 64-bit word. -/
def le64 (l : List Nat) : Nat :=
  (l.take 8).reverse.foldl (fun acc b => acc * 256 + b % 256) 0

/-- One 8-byte mixing round of MurmurHash64A. -/
def murmurRound (h k : Nat) : Nat :=
  let k := u64 (k * murmurM)
  let k := u64 (k ^^^ (k >>> murmurR))
  let k := u64 (k * murmurM)
  u64 (u64 (h ^^^ k) * murmurM)

/-- The `switch (len & 7)` tail of MurmurHash64A: xor in the at most 7
remaining bytes (shifted little-endian), then multiply once when the tail
is nonempty. -/
def murmurTail (h : Nat) (tail : List Nat) : Nat :=
  if tail = [] then h
  else u64 ((h ^^^ le64 tail) * murmurM)

def murmurLoop : Nat → List Nat → Nat
  | h, b0 :: b1 :: b2 :: b3 :: b4 :: b5 :: b6 :: b7 :: rest =>
      murmurLoop (murmurRound h (le64 [b0, b1, b2, b3, b4, b5, b6, b7])) rest
  | h, tail => murmurTail h tail

/-- Embeds `MurmurHash64A(key, len)` over the byte list `data`. -/
def MurmurHash64A (data : List Nat) : Nat :=
  let h := u64 (murmurSeed ^^^ u64 (data.length * murmurM))
  let h := murmurLoop h data
  let h := u64 (h ^^^ (h >>> murmurR))
  let h := u64 (h * murmurM)
  u64 (h ^^^ (h >>> murmurR))

/-- Embeds `BuildLog::LogEntry::HashCommand(command)`: MurmurHash64A of the
command's bytes. -/
def HashCommand (command : List Nat) : Nat :=
  MurmurHash64A command

/-! Section: CanonicalizePath (src/util.cc, lines 110–190)

The in-place pointer loop is embedded as a token pass.  Scanning `src`
between separators yields the path's components in order; empty tokens
are the duplicate (or trailing) separators the loop skips over.  The
`components[]` array of positions, through which `..` backs `dst` up, is
the `stack` argument; `..` components that cannot back up (empty stack)
are written to the output ahead of it, which the `dots` argument
accumulates.  `Fatal("path has too many components")`, reached when a
61st live component is about to be stored, is `none`. -/

/-- Split a character list at every occurrence of `sep`.  Mirrors the
`src` scan of `CanonicalizePath`: `n` separators yield `n+1` (possibly
empty) tokens. -/
def splitSep (sep : Char) : List Char → List (List Char)
  | [] => [[]]
  | c :: cs =>
    if c = sep then [] :: splitSep sep cs
    else
      match splitSep sep cs with
      | [] => [[]]
      | t :: ts => (c :: t) :: ts

/-- Join components with single `sep` characters; mirrors what the `dst`
writes spell once the final surplus character is dropped. -/
def joinSep (sep : Char) : List (List Char) → List Char
  | [] => []
  | [c] => c
  | c :: cs => c ++ sep :: joinSep sep cs

/-- Embeds `kMaxPathComponents` (src/util.cc line 133). -/
def kMaxPathComponents : Nat := 60

/-- The component loop of `CanonicalizePath` (src/util.cc lines 147–181).
`dots` holds the `..` components already written past backing-up reach,
`stack` the live components, most recent first.  `none` is the
`Fatal` abort. -/
def canonLoop :
    List (List Char) → List (List Char) → List (List Char) →
      Option (List (List Char) × List (List Char))
  | [], dots, stack => some (dots, stack)
  | t :: ts, dots, stack =>
    if t = [] then canonLoop ts dots stack
    else if t = ['.'] then canonLoop ts dots stack
    else if t = ['.', '.'] then
      match stack with
      | _ :: s => canonLoop ts dots s
      | [] => canonLoop ts (dots ++ [t]) []
    else if stack.length = kMaxPathComponents then none
    else canonLoop ts dots (t :: stack)

/-- The output assembly of `CanonicalizePath` (src/util.cc lines
183–189): the `.`-for-empty special case, the preserved leading
separator, and the components joined by single separators (the final
surplus character the loop copies is dropped by `*len = dst - start -
1`). -/
def canonAssemble (abs : Bool) (dots stack : List (List Char)) : List Char :=
  if dots ++ stack.reverse = [] then (if abs then [] else ['.'])
  else (if abs then ['/'] else []) ++ joinSep '/' (dots ++ stack.reverse)

/-- Embeds `CanonicalizePath(char* path, size_t* len, uint64_t* slash_bits)`:
the canonicalized path, or `none` when the code calls `Fatal`. -/
def canonPath (p : List Char) : Option (List Char) :=
  match p with
  | [] => some []
  | c :: rest =>
    let ab : Bool × List Char :=
      if c = '/' then (true, rest) else (false, c :: rest)
    (canonLoop (splitSep '/' ab.2) [] []).map fun pr =>
      canonAssemble ab.1 pr.1 pr.2

/-- Embeds `CanonicalizePath(std::string* path, uint64_t* slash_bits)` over
`String`. -/
def CanonicalizePath (s : String) : Option String :=
  (canonPath s.data).map List.asString

/-- Number of nonempty path components of the input, as separated by
`/`. -/
def componentCount (p : List Char) : Nat :=
  ((splitSep '/' p).filter (· ≠ [])).length

/-- A component the loop stores in `components[]`: nonempty, not `.`,
not `..`, and (being delimited by separators) free of `/`. -/
def GoodComp (c : List Char) : Prop :=
  c ≠ [] ∧ c ≠ ['.'] ∧ c ≠ ['.', '.'] ∧ '/' ∉ c

/-- Tokens the loop pushes onto `components[]` (as a Boolean filter). -/
def pushableTok (t : List Char) : Bool :=
  !(t == [] || t == ['.'] || t == ['.', '.'])

/-! Section: Cleaner (src/clean.cc)

`Cleaner::CleanDead` iterates the build-log entries; `Cleaner::Remove`
deduplicates through the `removed_` set, unlinks through the disk
interface, and counts a removal (`Report`) exactly when `RemoveFile`
returns `0`.  The model fixes `config_.dry_run = false` (the default
`BuildConfig`).  The disk interface's `RemoveFile` is the oracle `disk`
(`0` removed, `1` did not exist, `-1` error). -/

/-- The two links of a `Node` that `CleanDead` consults: `in_edge()` and
`out_edges()` (edges referenced by id). -/
structure CNode where
  inEdge : Option Nat
  outEdges : List Nat

/-- The cleaner state mutated by `Remove` / `Report`: the `removed_`
set (as a list of distinct paths), `cleaned_files_count_`, and
`status_`. -/
structure CleanState where
  removed : List String
  cleanedCount : Nat
  status : Int

/-- Embeds `Cleaner::Remove` (src/clean.cc lines 50–65), dry-run disabled. -/
def cleanerRemove (disk : String → Int) (s : CleanState) (p : String) :
    CleanState :=
  if p ∈ s.removed then s
  else
    let s' := { s with removed := p :: s.removed }
    if disk p = 0 then { s' with cleanedCount := s'.cleanedCount + 1 }
    else if disk p = -1 then { s' with status := 1 }
    else s'

/-- The staleness test of `Cleaner::CleanDead` (src/clean.cc line 141):
`!n || (!n->in_edge() && n->out_edges().empty())`. -/
def deadPath (lookup : String → Option CNode) (p : String) : Bool :=
  match lookup p with
  | none => true
  | some n => n.inEdge.isNone && n.outEdges.isEmpty

/-- One iteration of the `CleanDead` loop over a build-log entry's
output path. -/
def cleanDeadStep (lookup : String → Option CNode) (disk : String → Int)
    (s : CleanState) (p : String) : CleanState :=
  if deadPath lookup p then cleanerRemove disk s p else s

/-- Embeds `Cleaner::CleanDead` (src/clean.cc lines 125–147): `Reset()` then
the entry loop.  `entries` lists the build-log map's output paths in
iteration order. -/
def cleanDead (lookup : String → Option CNode) (disk : String → Int)
    (entries : List String) : CleanState :=
  entries.foldl (cleanDeadStep lookup disk) ⟨[], 0, 0⟩

/-! Section: Graph construction (src/state.cc, lines 88–151)

`State::AddEdge` appends an edge whose id is its index;
`State::AddIn`/`State::AddOut` link a (created-on-miss) node with the
edge.  Nodes are the `paths_` table, a map from path to the node's
links; edges hold their input/output paths. -/

/-- The links of a graph `Node`: `in_edge_` and `out_edges_`, edges
referenced by id. -/
structure GNode where
  inEdge : Option Nat
  outEdges : List Nat
  deriving DecidableEq, Repr

/-- An `Edge`'s input and output node lists (nodes named by path). -/
structure EdgeRec where
  inputs : List String
  outputs : List String
  deriving DecidableEq, Repr

/-- The `State`'s `edges_` vector and `paths_` table. -/
structure GraphState where
  edges : List EdgeRec
  nodes : String → Option GNode

def emptyGraph : GraphState := ⟨[], fun _ => none⟩

/-- Embeds `State::GetNode`: the node's current links, a fresh node on miss. -/
def getNodeData (g : GraphState) (p : String) : GNode :=
  (g.nodes p).getD ⟨none, []⟩

/-- Embeds `State::AddEdge`: a fresh edge with `id_ = edges_.size()`. -/
def stAddEdge (g : GraphState) : GraphState :=
  { g with edges := g.edges ++ [⟨[], []⟩] }

/-- Embeds `State::AddIn`: `edge->inputs_.push_back(node);
node->AddOutEdge(edge);`.  A dangling edge id (impossible through the
C++ pointer interface) leaves the state unchanged. -/
def stAddIn (g : GraphState) (eid : Nat) (p : String) : GraphState :=
  if h : eid < g.edges.length then
    GraphState.mk
      (g.edges.set eid
        (EdgeRec.mk ((g.edges[eid]).inputs ++ [p]) (g.edges[eid]).outputs))
      (Function.update g.nodes p
        (some (GNode.mk (getNodeData g p).inEdge
          ((getNodeData g p).outEdges ++ [eid]))))
  else g

/-- Embeds `State::AddOut`: fails (returning `false`, linking nothing) when the
node already has a producing edge; otherwise records the link on both
sides and returns `true`.  `GetNode`'s create-on-miss side effect is
kept in the failure branch. -/
def stAddOut (g : GraphState) (eid : Nat) (p : String) : GraphState × Bool :=
  if h : eid < g.edges.length then
    if (getNodeData g p).inEdge.isSome then
      (GraphState.mk g.edges
        (Function.update g.nodes p (some (getNodeData g p))), false)
    else
      (GraphState.mk
        (g.edges.set eid
          (EdgeRec.mk (g.edges[eid]).inputs ((g.edges[eid]).outputs ++ [p])))
        (Function.update g.nodes p
          (some (GNode.mk (some eid) (getNodeData g p).outEdges))), true)
  else (g, false)

/-- A call in a graph-construction sequence. -/
inductive GraphOp where
  | addEdge
  | addIn (eid : Nat) (p : String)
  | addOut (eid : Nat) (p : String)

def execOp (g : GraphState) : GraphOp → GraphState
  | .addEdge => stAddEdge g
  | .addIn eid p => stAddIn g eid p
  | .addOut eid p => (stAddOut g eid p).1

def runOps (ops : List GraphOp) : GraphState :=
  ops.foldl execOp emptyGraph

/-- The graph-link invariants: every output of an edge points back at it
through `in_edge`, and every input lists it among its `out_edges`. -/
def GraphInv (g : GraphState) : Prop :=
  ∀ i (h : i < g.edges.length),
    (∀ p ∈ g.edges[i].outputs, ∃ n, g.nodes p = some n ∧ n.inEdge = some i) ∧
    (∀ p ∈ g.edges[i].inputs, ∃ n, g.nodes p = some n ∧ i ∈ n.outEdges)

/-! Section: Build log text format (src/build_log.cc)

A log file is a list of `\n`-terminated lines (the `LineReader`).  The
writer (`BuildLog::WriteEntry`) renders
`start\tend\tmtime\toutput\thash-in-hex`; the loader (`BuildLog::Load`)
reads the version from the first line through
`sscanf("# ninja log v%d")`, deletes the file when that version is below
`kOldestSupportedVersion`, and otherwise field-splits every line at tab
separators, skipping lines with fewer than four tabs.  Number parsing
mirrors `atoi` / `strtoll` (base 10) and `strtoull(..., 16)`. -/

/-- A `BuildLog::LogEntry`. -/
structure LogEntry where
  output : List Char
  commandHash : Nat
  startTime : Int
  endTime : Int
  mtime : Int
  deriving DecidableEq, Repr

def kOldestSupportedVersion : Int := 4

def kCurrentVersion : Int := 5

/-- Embeds `isspace` for the characters `scanf`/`strtol` skip. -/
def isSpaceChar (c : Char) : Bool :=
  c = ' ' || c = '\t' || c = '\n' || c = '\x0b' || c = '\x0c' || c = '\r'

def isDigitChar (c : Char) : Bool :=
  '0' ≤ c && c ≤ '9'

def isHexDigitChar (c : Char) : Bool :=
  ('0' ≤ c && c ≤ '9') || ('a' ≤ c && c ≤ 'f') || ('A' ≤ c && c ≤ 'F')

def digitChar (d : Nat) : Char :=
  match d with
  | 0 => '0' | 1 => '1' | 2 => '2' | 3 => '3' | 4 => '4'
  | 5 => '5' | 6 => '6' | 7 => '7' | 8 => '8' | _ => '9'

def hexDigitChar (d : Nat) : Char :=
  match d with
  | 0 => '0' | 1 => '1' | 2 => '2' | 3 => '3' | 4 => '4'
  | 5 => '5' | 6 => '6' | 7 => '7' | 8 => '8' | 9 => '9'
  | 10 => 'a' | 11 => 'b' | 12 => 'c' | 13 => 'd' | 14 => 'e' | _ => 'f'

def decDigitVal (c : Char) : Nat := c.toNat - 48

def hexDigitVal (c : Char) : Nat :=
  if c ≤ '9' then c.toNat - 48
  else if c ≤ 'F' then c.toNat - 55
  else c.toNat - 87

/-- The digits of `n` in base `base`, most significant first; `[]` for
`0`.  The fuel argument (any bound with `n < base ^ fuel`) keeps the
recursion structural so that proofs can evaluate it. -/
def digitsAux (digit : Nat → Char) (base : Nat) : Nat → Nat → List Char
  | 0, _ => []
  | fuel + 1, n =>
    if n = 0 then []
    else digitsAux digit base fuel (n / base) ++ [digit (n % base)]

/-- Embeds `printf("%d")` of a nonnegative value (and the digit part of a
negative one). -/
def decRender (n : Nat) : List Char :=
  if n = 0 then ['0'] else digitsAux digitChar 10 n n

/-- Embeds `printf("%d")` / `printf("%" PRId64)`. -/
def renderInt (z : Int) : List Char :=
  if z < 0 then '-' :: decRender (-z).toNat else decRender z.toNat

/-- Embeds `printf("%" PRIx64)`: lowercase hex, no leading zeros, `0` for 0. -/
def hexRender (n : Nat) : List Char :=
  if n = 0 then ['0'] else digitsAux hexDigitChar 16 n n

/-- Accumulate a digit string left to right. -/
def parseDigitsAcc (val : Char → Nat) (base : Nat) (l : List Char) : Nat :=
  l.foldl (fun a c => a * base + val c) 0

/-- Sign handling and digit prefix of `atoi` / `strtoll(..., 10)` after
the whitespace skip. -/
def parseDecIntCore : List Char → Int
  | [] => 0
  | c :: rest =>
    if c = '-' then
      -(parseDigitsAcc decDigitVal 10 (rest.takeWhile isDigitChar) : Nat)
    else if c = '+' then
      (parseDigitsAcc decDigitVal 10 (rest.takeWhile isDigitChar) : Nat)
    else
      (parseDigitsAcc decDigitVal 10 ((c :: rest).takeWhile isDigitChar) : Nat)

/-- Embeds `atoi` / `strtoll(..., 10)`: skip whitespace, optional sign, then
the longest digit prefix (`0` when there are no digits). -/
def parseDecInt (l : List Char) : Int :=
  parseDecIntCore (l.dropWhile isSpaceChar)

/-- The optional `0x`/`0X` prefix `strtoul` accepts in base 16. -/
def stripHexPrefix : List Char → List Char
  | c0 :: c1 :: rest =>
    if c0 = '0' ∧ (c1 = 'x' ∨ c1 = 'X') then rest else c0 :: c1 :: rest
  | l => l

/-- Embeds `strtoull(..., nullptr, 16)` on a nonnegative field: skip
whitespace, optional `0x`/`0X` prefix, then the longest hex-digit
prefix. -/
def parseHexNat (l : List Char) : Nat :=
  parseDigitsAcc hexDigitVal 16
    ((stripHexPrefix (l.dropWhile isSpaceChar)).takeWhile isHexDigitChar)

/-- Split at the first occurrence of `sep` (`memchr`); `none` when
absent. -/
def splitFirst (sep : Char) : List Char → Option (List Char × List Char)
  | [] => none
  | c :: cs =>
    if c = sep then some ([], cs)
    else (splitFirst sep cs).map fun pr => (c :: pr.1, pr.2)

/-- The record parse of one line of `BuildLog::Load` (src/build_log.cc
lines 298–357): four tab-separated fields then the hash; lines lacking
a tab separator are skipped (`none`).  Logs older than version 5 store
the literal command in the last field and hash it on load. -/
def parseLogLine (version : Int) (line : List Char) : Option LogEntry :=
  (splitFirst '\t' line).bind fun pr1 =>
  (splitFirst '\t' pr1.2).bind fun pr2 =>
  (splitFirst '\t' pr2.2).bind fun pr3 =>
  (splitFirst '\t' pr3.2).map fun pr4 =>
    { output := pr4.1
      startTime := parseDecInt pr1.1
      endTime := parseDecInt pr2.1
      mtime := parseDecInt pr3.1
      commandHash :=
        if 5 ≤ version then parseHexNat pr4.2
        else HashCommand (pr4.2.map Char.toNat) }

/-- The literal part of `kFileSignature` (`"# ninja log v%d\n"`). -/
def headerPrefix : List Char := ('#' :: ' ' :: 'n' :: 'i' :: 'n' :: 'j' :: 'a'
  :: ' ' :: 'l' :: 'o' :: 'g' :: ' ' :: 'v' :: [])

/-- Embeds `sscanf(line, "# ninja log v%d", &log_version)`: on a match the
parsed number, otherwise `0` (the variable is left unchanged). -/
def parseVersionLine (line : List Char) : Int :=
  if headerPrefix.isPrefixOf line then parseDecInt (line.drop headerPrefix.length)
  else 0

/-- The header the writer emits for the current version. -/
def headerLineV5 : List Char := headerPrefix ++ ['5']

/-- The in-memory `entries_` map. -/
def LogEntries : Type := List Char → Option LogEntry

/-- Insert-or-update of `entries_` keyed by output path. -/
def upsert (m : LogEntries) (e : LogEntry) : LogEntries :=
  fun k => if k = e.output then some e else m k

def emptyEntries : LogEntries := fun _ => none

/-- Result of `BuildLog::Load` on a readable file.  `reset` is the
too-old-version path: the file is unlinked and the call returns
`LOAD_SUCCESS` with no entries recorded.  `loaded` carries `entries_`
and `needs_recompaction_`. -/
inductive LoadOutcome where
  | reset
  | loaded (entries : LogEntries) (needsRecompaction : Bool)

/-- The `entries_` map after the load call. -/
def LoadOutcome.entriesOf : LoadOutcome → LogEntries
  | .reset => emptyEntries
  | .loaded m _ => m

/-- Whether the load call unlinked the log file. -/
def LoadOutcome.deletedFile : LoadOutcome → Bool
  | .reset => true
  | .loaded _ _ => false

/-- The compaction decision at the end of `BuildLog::Load`
(src/build_log.cc lines 365–374). -/
def needsRecompact (version : Int) (unique total : Nat) : Bool :=
  version < kCurrentVersion || (total > 100 && total > unique * 3)

/-- One line of the load loop past the version check: parse, then
update `entries_` and the unique/total counters. -/
def loadStep (version : Int) (m : LogEntries) (u t : Nat) (line : List Char) :
    LogEntries × Nat × Nat :=
  match parseLogLine version line with
  | none => (m, u, t)
  | some e =>
    (upsert m e, if m e.output = none then u + 1 else u, t + 1)

/-- The line loop of `BuildLog::Load`: the version is read from the
first line while `log_version` is still 0 and a too-old version aborts
into the reset path. -/
def loadGo : List (List Char) → Int → LogEntries → Nat → Nat → LoadOutcome
  | [], v, m, u, t => .loaded m (needsRecompact v u t)
  | line :: rest, v, m, u, t =>
    if v = 0 then
      let pv := parseVersionLine line
      if pv < kOldestSupportedVersion then .reset
      else
        let s := loadStep pv m u t line
        loadGo rest pv s.1 s.2.1 s.2.2
    else
      let s := loadStep v m u t line
      loadGo rest v s.1 s.2.1 s.2.2

/-- Embeds `BuildLog::Load` over the file's lines.  An empty file returns
directly (`LOAD_SUCCESS`, no entries, no recompaction). -/
def loadLines : List (List Char) → LoadOutcome
  | [] => .loaded emptyEntries false
  | lines => loadGo lines 0 emptyEntries 0 0

/-- Embeds `BuildLog::WriteEntry` (src/build_log.cc lines 387–395), sans the
trailing newline the line model accounts for. -/
def writeEntryLine (e : LogEntry) : List Char :=
  renderInt e.startTime ++ ('\t' ::
    (renderInt e.endTime ++ ('\t' ::
      (renderInt e.mtime ++ ('\t' ::
        (e.output ++ ('\t' :: hexRender e.commandHash)))))))

/-- A log entry every field of which fits its C type and whose output
path survives the text format (no separator, no newline). -/
def WellFormedEntry (e : LogEntry) : Prop :=
  -(2 ^ 31) ≤ e.startTime ∧ e.startTime < 2 ^ 31 ∧
  -(2 ^ 31) ≤ e.endTime ∧ e.endTime < 2 ^ 31 ∧
  -(2 ^ 63) ≤ e.mtime ∧ e.mtime < 2 ^ 63 ∧
  e.commandHash < 2 ^ 64 ∧
  '\t' ∉ e.output ∧ '\n' ∉ e.output

instance : DecidablePred WellFormedEntry := fun e => by
  unfold WellFormedEntry
  infer_instance

/-- The last record carrying the key, the collection "restricted to the
last record per output path". -/
def lastEntryFor (records : List LogEntry) (k : List Char) : Option LogEntry :=
  (records.filter (fun e => e.output = k)).getLast?

theorem splitSep_ne_nil (sep : Char) (l : List Char) : splitSep sep l ≠ [] := by
  cases l with
  | nil => simp [splitSep]
  | cons c cs =>
    simp only [splitSep]
    split
    · simp
    · split <;> simp

theorem mem_splitSep_not_sep (sep : Char) :
    ∀ l, ∀ t ∈ splitSep sep l, sep ∉ t := by
  intro l
  induction l with
  | nil =>
    intro t ht
    simp only [splitSep, List.mem_singleton] at ht
    simp [ht]
  | cons c cs ih =>
    intro t ht
    simp only [splitSep] at ht
    by_cases hc : c = sep
    · rw [if_pos hc] at ht
      rcases List.mem_cons.mp ht with h | h
      · simp [h]
      · exact ih t h
    · rw [if_neg hc] at ht
      cases hs : splitSep sep cs with
      | nil => exact absurd hs (splitSep_ne_nil sep cs)
      | cons t0 ts =>
        rw [hs] at ht
        rcases List.mem_cons.mp ht with h | h
        · subst h
          intro hmem
          rcases List.mem_cons.mp hmem with h' | h'
          · exact hc h'.symm
          · exact ih t0 (hs ▸ List.mem_cons_self t0 ts) h'
        · exact ih t (hs ▸ List.mem_cons_of_mem t0 h)

theorem splitSep_single (sep : Char) :
    ∀ c, sep ∉ c → splitSep sep c = [c] := by
  intro c
  induction c with
  | nil => intro _; rfl
  | cons a as ih =>
    intro h
    have ha : ¬a = sep := fun e => h (e ▸ List.mem_cons_self a as)
    simp only [splitSep, if_neg ha,
      ih (fun hm => h (List.mem_cons_of_mem a hm))]

theorem splitSep_append (sep : Char) :
    ∀ c rest, sep ∉ c →
      splitSep sep (c ++ sep :: rest) = c :: splitSep sep rest := by
  intro c
  induction c with
  | nil =>
    intro rest _
    simp [splitSep]
  | cons a as ih =>
    intro rest h
    have ha : ¬a = sep := fun e => h (e ▸ List.mem_cons_self a as)
    simp only [List.cons_append, splitSep, if_neg ha, List.append_eq,
      ih rest (fun hm => h (List.mem_cons_of_mem a hm))]

theorem joinSep_cons (sep : Char) (c : List Char) (cs : List (List Char)) :
    ∃ x, joinSep sep (c :: cs) = c ++ x := by
  cases cs with
  | nil => exact ⟨[], by simp [joinSep]⟩
  | cons c2 cs2 => exact ⟨sep :: joinSep sep (c2 :: cs2), rfl⟩

theorem splitSep_joinSep (sep : Char) :
    ∀ comps, comps ≠ [] → (∀ c ∈ comps, sep ∉ c) →
      splitSep sep (joinSep sep comps) = comps := by
  intro comps
  induction comps with
  | nil => intro h; exact absurd rfl h
  | cons c cs ih =>
    intro _ hns
    cases cs with
    | nil =>
      show splitSep sep c = [c]
      exact splitSep_single sep c (hns c (List.mem_cons_self c []))
    | cons c2 cs2 =>
      show splitSep sep (c ++ sep :: joinSep sep (c2 :: cs2)) = _
      rw [splitSep_append sep c _ (hns c (List.mem_cons_self c _)),
        ih (by simp) (fun x hx => hns x (List.mem_cons_of_mem c hx))]

/-- Invariants of the component loop: only `..` components sit in
`dots`, only stored components sit in `stack`, and the stack never
exceeds `kMaxPathComponents` entries. -/
theorem canonLoop_good :
    ∀ ts dots stack dots' stack',
      (∀ t ∈ ts, '/' ∉ t) →
      (∀ d ∈ dots, d = ['.', '.']) →
      (∀ s ∈ stack, GoodComp s) →
      stack.length ≤ kMaxPathComponents →
      canonLoop ts dots stack = some (dots', stack') →
      (∀ d ∈ dots', d = ['.', '.']) ∧ (∀ s ∈ stack', GoodComp s) ∧
        stack'.length ≤ kMaxPathComponents := by
  intro ts
  induction ts with
  | nil =>
    intro dots stack d' s' _ hd hs hl heq
    simp only [canonLoop, Option.some.injEq, Prod.mk.injEq] at heq
    obtain ⟨h1, h2⟩ := heq
    subst h1; subst h2
    exact ⟨hd, hs, hl⟩
  | cons t ts ih =>
    intro dots stack d' s' hts hd hs hl heq
    have hts' : ∀ x ∈ ts, '/' ∉ x := fun x hx => hts x (List.mem_cons_of_mem t hx)
    simp only [canonLoop] at heq
    by_cases h1 : t = []
    · rw [if_pos h1] at heq
      exact ih _ _ _ _ hts' hd hs hl heq
    rw [if_neg h1] at heq
    by_cases h2 : t = ['.']
    · rw [if_pos h2] at heq
      exact ih _ _ _ _ hts' hd hs hl heq
    rw [if_neg h2] at heq
    by_cases h3 : t = ['.', '.']
    · rw [if_pos h3] at heq
      cases stack with
      | nil =>
        refine ih _ _ _ _ hts' (fun d hd' => ?_)
          (fun s hs' => absurd hs' (List.not_mem_nil s)) (by simp [kMaxPathComponents]) heq
        rcases List.mem_append.mp hd' with h | h
        · exact hd d h
        · rw [List.mem_singleton.mp h, h3]
      | cons s0 srest =>
        refine ih _ _ _ _ hts' hd
          (fun s hs' => hs s (List.mem_cons_of_mem s0 hs')) ?_ heq
        exact le_trans (by simp) hl
    rw [if_neg h3] at heq
    by_cases h4 : stack.length = kMaxPathComponents
    · rw [if_pos h4] at heq
      exact absurd heq (by simp)
    rw [if_neg h4] at heq
    refine ih _ _ _ _ hts' hd (fun s hs' => ?_) ?_ heq
    · rcases List.mem_cons.mp hs' with h | h
      · rw [h]
        exact ⟨h1, h2, h3, hts t (List.mem_cons_self t ts)⟩
      · exact hs s h
    · simp only [List.length_cons]
      omega

/-- Leading `..` components (hit with an empty stack) are copied to the
output one by one. -/
theorem canonLoop_dots :
    ∀ dots rest acc, (∀ d ∈ dots, d = ['.', '.']) →
      canonLoop (dots ++ rest) acc [] = canonLoop rest (acc ++ dots) [] := by
  intro dots
  induction dots with
  | nil => intro rest acc _; simp
  | cons d ds ih =>
    intro rest acc hd
    have hdd : d = ['.', '.'] := hd d (List.mem_cons_self d ds)
    subst hdd
    show canonLoop (['.', '.'] :: (ds ++ rest)) acc [] = _
    simp only [canonLoop, if_neg (by simp : ¬(['.', '.'] : List Char) = []),
      if_neg (by simp : ¬(['.', '.'] : List Char) = ['.']), if_pos rfl]
    rw [ih rest (acc ++ [['.', '.']]) (fun x hx => hd x (List.mem_cons_of_mem _ hx))]
    simp

/-- Stored components are pushed one by one; no `Fatal` fires while the
total stays within the cap. -/
theorem canonLoop_push :
    ∀ l dots stack, (∀ s ∈ l, GoodComp s) →
      stack.length + l.length ≤ kMaxPathComponents →
      canonLoop l dots stack = some (dots, l.reverse ++ stack) := by
  intro l
  induction l with
  | nil => intro dots stack _ _; simp [canonLoop]
  | cons t ts ih =>
    intro dots stack hg hl
    obtain ⟨h1, h2, h3, _⟩ := hg t (List.mem_cons_self t ts)
    have hlen : stack.length ≠ kMaxPathComponents := by
      simp only [List.length_cons] at hl
      omega
    simp only [canonLoop, if_neg h1, if_neg h2, if_neg h3, if_neg hlen]
    rw [ih dots (t :: stack) (fun x hx => hg x (List.mem_cons_of_mem _ hx))
      (by simp only [List.length_cons] at hl ⊢; omega)]
    simp

/-- Canonicalizing a separator-joined nonempty component list runs the
loop on exactly those components. -/
theorem canonPath_join (abs : Bool) (comps dots stack : List (List Char))
    (hne : comps ≠ []) (hnosep : ∀ c ∈ comps, '/' ∉ c)
    (hcne : ∀ c ∈ comps, c ≠ [])
    (hloop : canonLoop comps [] [] = some (dots, stack)) :
    canonPath ((if abs then ['/'] else []) ++ joinSep '/' comps) =
      some (canonAssemble abs dots stack) := by
  have hsplit : splitSep '/' (joinSep '/' comps) = comps :=
    splitSep_joinSep '/' comps hne hnosep
  cases abs with
  | true =>
    show canonPath ('/' :: joinSep '/' comps) = _
    simp only [canonPath, eq_self_iff_true, if_true]
    rw [hsplit, hloop]
    rfl
  | false =>
    cases comps with
    | nil => exact absurd rfl hne
    | cons c0 cs =>
      obtain ⟨x, hx⟩ := joinSep_cons '/' c0 cs
      cases c0 with
      | nil => exact absurd rfl (hcne [] (List.mem_cons_self _ _))
      | cons a c0' =>
        have ha : ¬a = '/' := fun e =>
          hnosep _ (List.mem_cons_self _ _) (e ▸ List.mem_cons_self a c0')
        show canonPath (joinSep '/' ((a :: c0') :: cs)) = _
        rw [hx]
        show canonPath (a :: (c0' ++ x)) = _
        simp only [canonPath, if_neg ha]
        have : a :: (c0' ++ x) = joinSep '/' ((a :: c0') :: cs) := by
          rw [hx]; rfl
        rw [this, hsplit, hloop]
        rfl

/-- Outputs of `CanonicalizePath` are fixed points of
`CanonicalizePath`. -/
theorem canonPath_assemble_fixed (abs : Bool) (dots stack : List (List Char))
    (hd : ∀ d ∈ dots, d = ['.', '.']) (hs : ∀ s ∈ stack, GoodComp s)
    (hl : stack.length ≤ kMaxPathComponents) :
    canonPath (canonAssemble abs dots stack) =
      some (canonAssemble abs dots stack) := by
  by_cases hc : dots ++ stack.reverse = []
  · unfold canonAssemble
    rw [if_pos hc]
    cases abs with
    | true => decide
    | false => decide
  · have hnosep : ∀ c ∈ dots ++ stack.reverse, '/' ∉ c := by
      intro c hcm
      rcases List.mem_append.mp hcm with h | h
      · rw [hd c h]; simp
      · exact (hs c (List.mem_reverse.mp h)).2.2.2
    have hcne : ∀ c ∈ dots ++ stack.reverse, c ≠ [] := by
      intro c hcm
      rcases List.mem_append.mp hcm with h | h
      · rw [hd c h]; simp
      · exact (hs c (List.mem_reverse.mp h)).1
    have hloop : canonLoop (dots ++ stack.reverse) [] [] = some (dots, stack) := by
      rw [canonLoop_dots dots stack.reverse [] hd,
        canonLoop_push stack.reverse ([] ++ dots) []
          (fun x hx => hs x (List.mem_reverse.mp hx)) (by simpa using hl)]
      simp
    have hasm : canonAssemble abs dots stack =
        (if abs then ['/'] else []) ++ joinSep '/' (dots ++ stack.reverse) := by
      unfold canonAssemble
      rw [if_neg hc]
    rw [hasm]
    rw [canonPath_join abs (dots ++ stack.reverse) dots stack hc hnosep hcne hloop]
    rw [hasm]

theorem canonPath_idem (p q : List Char) (h : canonPath p = some q) :
    canonPath q = some q := by
  cases p with
  | nil =>
    simp only [canonPath, Option.some.injEq] at h
    subst h
    rfl
  | cons c rest =>
    simp only [canonPath] at h
    by_cases hc : c = '/' <;>
      [rw [if_pos hc] at h; rw [if_neg hc] at h] <;>
    · rcases hcl : canonLoop (splitSep '/' _) [] [] with _ | ⟨dots, stack⟩ <;>
        rw [hcl] at h
      · exact absurd h (by simp)
      · simp only [Option.map_some, Option.map_some', Option.some.injEq] at h
        have hinv := canonLoop_good _ [] [] dots stack
          (mem_splitSep_not_sep '/' _) (by simp) (by simp)
          (Nat.zero_le _) hcl
        rw [← h]
        exact canonPath_assemble_fixed _ dots stack hinv.1 hinv.2.1 hinv.2.2

theorem canonLoop_isSome :
    ∀ ts dots stack,
      stack.length + (ts.filter pushableTok).length ≤ kMaxPathComponents →
      (canonLoop ts dots stack).isSome := by
  intro ts
  induction ts with
  | nil => intro dots stack _; simp [canonLoop]
  | cons t ts ih =>
    intro dots stack hl
    simp only [canonLoop]
    by_cases h1 : t = []
    · rw [if_pos h1]
      refine ih dots stack ?_
      have hp : pushableTok t = false := by simp [pushableTok, h1]
      simpa [List.filter_cons, hp] using hl
    rw [if_neg h1]
    by_cases h2 : t = ['.']
    · rw [if_pos h2]
      refine ih dots stack ?_
      have hp : pushableTok t = false := by simp [pushableTok, h2]
      simpa [List.filter_cons, hp] using hl
    rw [if_neg h2]
    by_cases h3 : t = ['.', '.']
    · rw [if_pos h3]
      have hp : pushableTok t = false := by simp [pushableTok, h3]
      cases stack with
      | nil =>
        refine ih (dots ++ [t]) [] ?_
        simpa [List.filter_cons, hp] using hl
      | cons s0 srest =>
        refine ih dots srest ?_
        simp only [List.filter_cons, hp, List.length_cons] at hl ⊢
        simp at hl
        omega
    rw [if_neg h3]
    have hp : pushableTok t = true := by simp [pushableTok, h1, h2, h3]
    have hflt : ((t :: ts).filter pushableTok).length =
        (ts.filter pushableTok).length + 1 := by
      simp [List.filter_cons, hp]
    rw [hflt] at hl
    have hne : stack.length ≠ kMaxPathComponents := by omega
    rw [if_neg hne]
    refine ih dots (t :: stack) ?_
    simp only [List.length_cons]
    omega

theorem filter_pushable_le (l : List (List Char)) :
    (l.filter pushableTok).length ≤ (l.filter (· ≠ [])).length := by
  refine List.Sublist.length_le (List.monotone_filter_right l ?_)
  intro a ha
  simp only [pushableTok, Bool.not_eq_true', Bool.or_eq_false_iff,
    beq_eq_false_iff_ne, ne_eq] at ha
  simp [ha.1.1]

theorem canonPath_isSome_of_le (p : List Char)
    (h : componentCount p ≤ kMaxPathComponents) : (canonPath p).isSome := by
  cases p with
  | nil => rfl
  | cons c rest =>
    simp only [canonPath]
    by_cases hc : c = '/'
    · rw [if_pos hc]
      have hsome : (canonLoop (splitSep '/' ((true, rest) : Bool × List Char).2)
          [] []).isSome := by
        refine canonLoop_isSome _ [] [] ?_
        have hsplit : splitSep '/' (c :: rest) = [] :: splitSep '/' rest := by
          simp [splitSep, hc]
        unfold componentCount at h
        rw [hsplit] at h
        have h2 : ((splitSep '/' rest).filter (· ≠ [])).length ≤
            kMaxPathComponents := by simpa using h
        have h3 := filter_pushable_le (splitSep '/' rest)
        simp only [List.length_nil]
        omega
      obtain ⟨pr, hpr⟩ := Option.isSome_iff_exists.mp hsome
      rw [hpr]
      rfl
    · rw [if_neg hc]
      have hsome : (canonLoop (splitSep '/'
          ((false, c :: rest) : Bool × List Char).2) [] []).isSome := by
        refine canonLoop_isSome _ [] [] ?_
        unfold componentCount at h
        have h3 := filter_pushable_le (splitSep '/' (c :: rest))
        simp only [List.length_nil]
        omega
      obtain ⟨pr, hpr⟩ := Option.isSome_iff_exists.mp hsome
      rw [hpr]
      rfl

/-- Claim C2: `CanonicalizePath` is idempotent: whenever `CanonicalizePath`
returns a result (does not abort through `Fatal`), applying it to that
result returns the result unchanged. -/
theorem CanonicalizePath_idempotent (s t : String)
    (h : CanonicalizePath s = some t) : CanonicalizePath t = some t := by
  unfold CanonicalizePath at h ⊢
  cases hcp : canonPath s.data with
  | none => rw [hcp] at h; exact absurd h (by simp)
  | some q =>
    rw [hcp] at h
    simp only [Option.map_some, Option.map_some', Option.some.injEq] at h
    subst h
    have hdata : (List.asString q).data = q := rfl
    rw [hdata, canonPath_idem s.data q hcp]
    rfl

/-- Witness for C2 at a concrete input: canonicalizing `a//b/./c` gives
`a/b/c`, and canonicalizing that result again leaves it unchanged. -/
theorem CanonicalizePath_idempotent_witness :
    CanonicalizePath "a//b/./c" = some "a/b/c" ∧
      CanonicalizePath "a/b/c" = some "a/b/c" :=
  ⟨by decide, CanonicalizePath_idempotent "a//b/./c" "a/b/c" (by decide)⟩

/-- Claim C8: The boundary values of `CanonicalizePath` listed by the
spec: `"" ↦ ""`, `"/" ↦ ""`, `"./." ↦ "."`, `"foo/.." ↦ "."`,
`"../../a" ↦ "../../a"`, `"foo//bar" ↦ "foo/bar"`. -/
theorem CanonicalizePath_boundary_values :
    CanonicalizePath "" = some "" ∧
    CanonicalizePath "/" = some "" ∧
    CanonicalizePath "./." = some "." ∧
    CanonicalizePath "foo/.." = some "." ∧
    CanonicalizePath "../../a" = some "../../a" ∧
    CanonicalizePath "foo//bar" = some "foo/bar" := by
  refine ⟨by decide, by decide, by decide, by decide, by decide, by decide⟩

/-- Claim C10: `CanonicalizePath` has a hard component limit of
`kMaxPathComponents = 60`: every input with at most 60 (nonempty) path
components canonicalizes normally, while the 61-component path
`a/a/.../a` makes the code abort through
`Fatal("path has too many components")` (modelled as `none`). -/
theorem canonPath_component_limit :
    (∀ p : List Char, componentCount p ≤ kMaxPathComponents →
      (canonPath p).isSome) ∧
    canonPath (joinSep '/' (List.replicate 61 ['a'])) = none :=
  ⟨canonPath_isSome_of_le, by decide⟩

/-- Witness for C10 at a concrete input: `a/b` has at most 60 components
and canonicalizes normally. -/
theorem canonPath_component_limit_witness :
    componentCount ('a' :: '/' :: 'b' :: []) ≤ kMaxPathComponents ∧
      (canonPath ('a' :: '/' :: 'b' :: [])).isSome :=
  ⟨by decide, canonPath_component_limit.1 ('a' :: '/' :: 'b' :: []) (by decide)⟩

/-- Claim C4, counterexample: For a pool of depth 0 (the default pool),
`Pool::EdgeScheduled` leaves `current_use_` unchanged, so scheduling an
edge of weight 1 does *not* increase it by the weight. -/
theorem Pool_edgeScheduled_depth0_counterexample :
    ((Pool.mk 0 0).edgeScheduled 1).currentUse = 0 ∧ (0 : Int) ≠ 0 + 1 :=
  ⟨rfl, by decide⟩

/-- Claim C4, amended: When the pool's depth is nonzero,
`Pool::EdgeScheduled` adds the edge's weight to `current_use_` and
`Pool::EdgeFinished` subtracts it; when the depth is 0 (admission
control disabled) both calls leave the pool unchanged. -/
theorem Pool_edge_accounting (p : Pool) (w : Int) :
    (p.depth ≠ 0 →
      (p.edgeScheduled w).currentUse = p.currentUse + w ∧
      (p.edgeFinished w).currentUse = p.currentUse - w) ∧
    (p.depth = 0 → p.edgeScheduled w = p ∧ p.edgeFinished w = p) := by
  constructor
  · intro h
    simp [Pool.edgeScheduled, Pool.edgeFinished, h]
  · intro h
    simp [Pool.edgeScheduled, Pool.edgeFinished, h]

/-- Witness for C4 at concrete pools: a depth-2 pool gains and loses
weight 3; a depth-0 pool is untouched. -/
theorem Pool_edge_accounting_witness :
    (((Pool.mk 2 5).edgeScheduled 3).currentUse = 5 + 3 ∧
      ((Pool.mk 2 5).edgeFinished 3).currentUse = 5 - 3) ∧
    ((Pool.mk 0 5).edgeScheduled 3 = Pool.mk 0 5 ∧
      (Pool.mk 0 5).edgeFinished 3 = Pool.mk 0 5) :=
  ⟨(Pool_edge_accounting (Pool.mk 2 5) 3).1 (by decide),
    (Pool_edge_accounting (Pool.mk 0 5) 3).2 rfl⟩

/-- Claim C5, counterexample: The hash of the empty command is
`0x87C2BC0BEAF1D91D`, not the spec's golden value
`0x3244B95A06B4C48B`. -/
theorem HashCommand_golden_counterexample :
    HashCommand [] ≠ 0x3244B95A06B4C48B := by decide

/-- Claim C5, amended: `BuildLog::LogEntry::HashCommand` is 64-bit
MurmurHash2 with seed `0xDECAFBADDECAFBAD`, multiplier
`0xc6a4a7935bd1e995` and shift 47, and the hash of the empty command is
the golden value `0x87C2BC0BEAF1D91D`. -/
theorem HashCommand_spec :
    murmurSeed = 0xDECAFBADDECAFBAD ∧
    murmurM = 0xc6a4a7935bd1e995 ∧
    murmurR = 47 ∧
    (∀ command, HashCommand command = MurmurHash64A command) ∧
    HashCommand [] = 0x87C2BC0BEAF1D91D :=
  ⟨rfl, rfl, rfl, fun _ => rfl, by decide⟩

/-- Claim C7, counterexample: For a file whose OS-reported mtime is one
second before the epoch, `RealDiskInterface::Stat` returns the negative
timestamp `-1000000000`, not a positive one (while nothing failed and no
error is set). -/
theorem realDiskStat_negative_counterexample :
    realDiskStat ('f' :: []) (.ok (-1) 0) = (-1000000000, none) ∧
      ¬(0 < (-1000000000 : Int)) :=
  ⟨rfl, by decide⟩

/-- Claim C7, amended: `RealDiskInterface::Stat` returns 0 when the file
does not exist, 1 when the file exists but the OS reports mtime 0, and
-1 with the error string set on a stat failure; otherwise it returns
`sec·10⁹ + nsec`, which is positive whenever the reported seconds are
positive (a pre-epoch mtime yields a negative timestamp). -/
theorem realDiskStat_spec (path : List Char) (r : StatResult) :
    (r = .absent → realDiskStat path r = (0, none)) ∧
    (∀ msg, r = .failure msg →
      (realDiskStat path r).1 = -1 ∧ (realDiskStat path r).2.isSome) ∧
    (∀ sec nsec, r = .ok sec nsec →
      (sec = 0 → realDiskStat path r = (1, none)) ∧
      (sec ≠ 0 → realDiskStat path r = (sec * 1000000000 + nsec, none)) ∧
      (0 < sec → 0 ≤ nsec → 0 < (realDiskStat path r).1)) := by
  refine ⟨fun h => by rw [h]; rfl, fun msg h => by rw [h]; exact ⟨rfl, rfl⟩,
    fun sec nsec h => ?_⟩
  subst h
  refine ⟨fun hz => by simp [realDiskStat, hz], fun hnz => by simp [realDiskStat, hnz],
    fun hpos hn => ?_⟩
  have hnz : sec ≠ 0 := by omega
  simp only [realDiskStat, if_neg hnz]
  omega

/-- Witness for C7 at concrete stat results: absence, a failure, a
zero mtime, and an ordinary post-epoch mtime. -/
theorem realDiskStat_spec_witness :
    realDiskStat [] .absent = (0, none) ∧
    (realDiskStat [] (.failure ('x' :: []))).1 = -1 ∧
    realDiskStat [] (.ok 0 7) = (1, none) ∧
    0 < (realDiskStat [] (.ok 2 5)).1 :=
  ⟨(realDiskStat_spec [] .absent).1 rfl,
    ((realDiskStat_spec [] (.failure ('x' :: []))).2.1 ('x' :: []) rfl).1,
    ((realDiskStat_spec [] (.ok 0 7)).2.2 0 7 rfl).1 rfl,
    ((realDiskStat_spec [] (.ok 2 5)).2.2 2 5 rfl).2.2 (by decide) (by decide)⟩

theorem deadPath_iff (lookup : String → Option CNode) (p : String) :
    deadPath lookup p = true ↔
      (lookup p = none ∨
        ∃ n, lookup p = some n ∧ n.inEdge = none ∧ n.outEdges = []) := by
  unfold deadPath
  cases h : lookup p with
  | none => simp
  | some n =>
    simp [Option.isNone_iff_eq_none, List.isEmpty_iff, Bool.and_eq_true]

theorem cleanDead_fold_spec (lookup : String → Option CNode)
    (disk : String → Int) :
    ∀ (entries : List String) (s : CleanState),
      s.removed.Nodup →
      s.cleanedCount = (s.removed.filter (fun p => disk p = 0)).length →
      (entries.foldl (cleanDeadStep lookup disk) s).removed.Nodup ∧
      (∀ p, p ∈ (entries.foldl (cleanDeadStep lookup disk) s).removed ↔
        (p ∈ s.removed ∨ (p ∈ entries ∧ deadPath lookup p = true))) ∧
      (entries.foldl (cleanDeadStep lookup disk) s).cleanedCount =
        ((entries.foldl (cleanDeadStep lookup disk) s).removed.filter
          (fun p => disk p = 0)).length := by
  intro entries
  induction entries with
  | nil =>
    intro s h1 h2
    exact ⟨h1, fun p => by simp, h2⟩
  | cons e es ih =>
    intro s h1 h2
    simp only [List.foldl_cons]
    by_cases hd : deadPath lookup e = true
    · have hstep : cleanDeadStep lookup disk s e = cleanerRemove disk s e := by
        simp [cleanDeadStep, hd]
      rw [hstep]
      by_cases hin : e ∈ s.removed
      · have hrm : cleanerRemove disk s e = s := by simp [cleanerRemove, hin]
        rw [hrm]
        obtain ⟨j1, j2, j3⟩ := ih s h1 h2
        refine ⟨j1, fun p => ?_, j3⟩
        rw [j2 p]
        constructor
        · rintro (h | h)
          · exact Or.inl h
          · exact Or.inr ⟨List.mem_cons_of_mem e h.1, h.2⟩
        · rintro (h | ⟨hp, hdead⟩)
          · exact Or.inl h
          · rcases List.mem_cons.mp hp with rfl | hp2
            · exact Or.inl hin
            · exact Or.inr ⟨hp2, hdead⟩
      · have hrem : (cleanerRemove disk s e).removed = e :: s.removed := by
          simp only [cleanerRemove, if_neg hin]
          split
          · rfl
          · split <;> rfl
        have hnd2 : (cleanerRemove disk s e).removed.Nodup := by
          rw [hrem]
          exact List.nodup_cons.mpr ⟨hin, h1⟩
        have hcnt2 : (cleanerRemove disk s e).cleanedCount =
            ((cleanerRemove disk s e).removed.filter
              (fun p => disk p = 0)).length := by
          by_cases hdisk : disk e = 0
          · simp [cleanerRemove, if_neg hin, hdisk, List.filter_cons, h2]
          · by_cases herr : disk e = -1 <;>
              simp [cleanerRemove, if_neg hin, hdisk, herr, List.filter_cons, h2]
        obtain ⟨j1, j2, j3⟩ := ih (cleanerRemove disk s e) hnd2 hcnt2
        refine ⟨j1, fun p => ?_, j3⟩
        rw [j2 p, hrem]
        constructor
        · rintro (h | h)
          · rcases List.mem_cons.mp h with rfl | h2'
            · exact Or.inr ⟨List.mem_cons_self p es, hd⟩
            · exact Or.inl h2'
          · exact Or.inr ⟨List.mem_cons_of_mem e h.1, h.2⟩
        · rintro (h | ⟨hp, hdead⟩)
          · exact Or.inl (List.mem_cons_of_mem e h)
          · rcases List.mem_cons.mp hp with rfl | hp2
            · exact Or.inl (List.mem_cons_self p _)
            · exact Or.inr ⟨hp2, hdead⟩
    · have hstep : cleanDeadStep lookup disk s e = s := by
        simp [cleanDeadStep, hd]
      rw [hstep]
      obtain ⟨j1, j2, j3⟩ := ih s h1 h2
      refine ⟨j1, fun p => ?_, j3⟩
      rw [j2 p]
      constructor
      · rintro (h | h)
        · exact Or.inl h
        · exact Or.inr ⟨List.mem_cons_of_mem e h.1, h.2⟩
      · rintro (h | ⟨hp, hdead⟩)
        · exact Or.inl h
        · rcases List.mem_cons.mp hp with rfl | hp2
          · exact absurd hdead hd
          · exact Or.inr ⟨hp2, hdead⟩

/-- Claim C9: In dead mode, `Cleaner::CleanDead` removes exactly those
build-log output paths for which no node exists in the state, or whose
node has neither a producing edge nor consuming edges; the removed set
is duplicate-free, and `cleaned_files_count_` counts each distinct
removed path at most once (exactly the removed paths whose unlink
succeeded). -/
theorem cleanDead_spec (lookup : String → Option CNode) (disk : String → Int)
    (entries : List String) :
    (∀ p, p ∈ (cleanDead lookup disk entries).removed ↔
      (p ∈ entries ∧ (lookup p = none ∨
        ∃ n, lookup p = some n ∧ n.inEdge = none ∧ n.outEdges = []))) ∧
    (cleanDead lookup disk entries).removed.Nodup ∧
    (cleanDead lookup disk entries).cleanedCount =
      ((cleanDead lookup disk entries).removed.filter
        (fun p => disk p = 0)).length := by
  obtain ⟨j1, j2, j3⟩ :=
    cleanDead_fold_spec lookup disk entries ⟨[], 0, 0⟩ (by simp) (by simp)
  refine ⟨fun p => ?_, j1, j3⟩
  rw [show cleanDead lookup disk entries =
      entries.foldl (cleanDeadStep lookup disk) ⟨[], 0, 0⟩ from rfl, j2 p]
  simp [deadPath_iff]

theorem graphInv_empty : GraphInv emptyGraph := by
  intro i h
  simp [emptyGraph] at h

theorem graphInv_addEdge {g : GraphState} (hg : GraphInv g) :
    GraphInv (stAddEdge g) := by
  intro i h
  have hlt : i < g.edges.length + 1 := by
    simpa [stAddEdge] using h
  by_cases hi : i < g.edges.length
  · have he : (stAddEdge g).edges[i] = g.edges[i] :=
      List.getElem_append_left hi
    exact ⟨fun p hp => (hg i hi).1 p (he ▸ hp), fun p hp => (hg i hi).2 p (he ▸ hp)⟩
  · have he : (stAddEdge g).edges[i] = EdgeRec.mk [] [] := by
      show (g.edges ++ [EdgeRec.mk [] []])[i] = _
      rw [List.getElem_append_right (Nat.le_of_not_lt hi)]
      simp
    constructor <;> intro p hp <;> rw [he] at hp <;> simp at hp

theorem GraphState.edges_mk (E : List EdgeRec) (N : String → Option GNode) :
    (GraphState.mk E N).edges = E := rfl

theorem GraphState.nodes_mk (E : List EdgeRec) (N : String → Option GNode) :
    (GraphState.mk E N).nodes = N := rfl

theorem graphInv_addIn {g : GraphState} (hg : GraphInv g) (eid : Nat)
    (p : String) : GraphInv (stAddIn g eid p) := by
  unfold stAddIn
  split
  case isFalse _ => exact hg
  case isTrue heid =>
    intro i h
    rw [GraphState.edges_mk] at h
    have hlen : i < g.edges.length := by simpa using h
    have houts : ((g.edges.set eid
        (EdgeRec.mk ((g.edges[eid]).inputs ++ [p]) (g.edges[eid]).outputs))[i]).outputs =
        (g.edges[i]).outputs := by
      by_cases hie : eid = i
      · subst hie
        rw [List.getElem_set_self]
      · rw [List.getElem_set_ne hie]
    constructor
    · intro q hq
      simp only [GraphState.edges_mk, houts] at hq
      simp only [GraphState.nodes_mk]
      obtain ⟨m, hm, hmi⟩ := (hg i hlen).1 q hq
      by_cases hqp : q = p
      · subst hqp
        refine ⟨GNode.mk m.inEdge (m.outEdges ++ [eid]), ?_, hmi⟩
        have hgm : getNodeData g q = m := by rw [getNodeData, hm]; rfl
        rw [hgm, Function.update_same]
      · exact ⟨m, by rw [Function.update_noteq hqp]; exact hm, hmi⟩
    · intro q hq
      simp only [GraphState.edges_mk] at hq
      simp only [GraphState.nodes_mk]
      by_cases hie : eid = i
      · subst hie
        rw [List.getElem_set_self] at hq
        rcases List.mem_append.mp hq with hold | hnew
        · obtain ⟨m, hm, hmi⟩ := (hg eid hlen).2 q hold
          by_cases hqp : q = p
          · subst hqp
            refine ⟨GNode.mk m.inEdge (m.outEdges ++ [eid]), ?_, ?_⟩
            · have hgm : getNodeData g q = m := by rw [getNodeData, hm]; rfl
              rw [hgm, Function.update_same]
            · exact List.mem_append_left _ hmi
          · exact ⟨m, by rw [Function.update_noteq hqp]; exact hm, hmi⟩
        · have hqp : q = p := by simpa using hnew
          subst hqp
          refine ⟨GNode.mk (getNodeData g q).inEdge
            ((getNodeData g q).outEdges ++ [eid]), Function.update_same _ _ _, ?_⟩
          exact List.mem_append_right _ (List.mem_singleton.mpr rfl)
      · rw [List.getElem_set_ne hie] at hq
        obtain ⟨m, hm, hmi⟩ := (hg i hlen).2 q hq
        by_cases hqp : q = p
        · subst hqp
          refine ⟨GNode.mk m.inEdge (m.outEdges ++ [eid]), ?_, ?_⟩
          · have hgm : getNodeData g q = m := by rw [getNodeData, hm]; rfl
            rw [hgm, Function.update_same]
          · exact List.mem_append_left _ hmi
        · exact ⟨m, by rw [Function.update_noteq hqp]; exact hm, hmi⟩

theorem graphInv_addOut_success {g : GraphState} (hg : GraphInv g) (eid : Nat)
    (p : String) (heid : eid < g.edges.length)
    (hnone : (getNodeData g p).inEdge = none) :
    GraphInv (GraphState.mk
      (g.edges.set eid
        (EdgeRec.mk (g.edges[eid]).inputs ((g.edges[eid]).outputs ++ [p])))
      (Function.update g.nodes p
        (some (GNode.mk (some eid) (getNodeData g p).outEdges)))) := by
  have hnotout : ∀ j (hj : j < g.edges.length), p ∉ (g.edges[j]).outputs := by
    intro j hj hmem
    obtain ⟨m, hm, hmi⟩ := (hg j hj).1 p hmem
    have hgm : getNodeData g p = m := by rw [getNodeData, hm]; rfl
    rw [hgm, hmi] at hnone
    exact Option.noConfusion hnone
  intro i h
  rw [GraphState.edges_mk] at h
  have hlen : i < g.edges.length := by simpa using h
  constructor
  · intro q hq
    simp only [GraphState.edges_mk] at hq
    simp only [GraphState.nodes_mk]
    by_cases hie : eid = i
    · subst hie
      rw [List.getElem_set_self] at hq
      rcases List.mem_append.mp hq with hold | hnew
      · have hqp : q ≠ p := fun e => hnotout eid hlen (e ▸ hold)
        obtain ⟨m, hm, hmi⟩ := (hg eid hlen).1 q hold
        exact ⟨m, by rw [Function.update_noteq hqp]; exact hm, hmi⟩
      · have hqp : q = p := by simpa using hnew
        subst hqp
        exact ⟨GNode.mk (some eid) (getNodeData g q).outEdges,
          Function.update_same _ _ _, rfl⟩
    · rw [List.getElem_set_ne hie] at hq
      have hqp : q ≠ p := fun e => hnotout i hlen (e ▸ hq)
      obtain ⟨m, hm, hmi⟩ := (hg i hlen).1 q hq
      exact ⟨m, by rw [Function.update_noteq hqp]; exact hm, hmi⟩
  · intro q hq
    simp only [GraphState.edges_mk] at hq
    simp only [GraphState.nodes_mk]
    have hq2 : q ∈ (g.edges[i]).inputs := by
      by_cases hie : eid = i
      · subst hie
        rwa [List.getElem_set_self] at hq
      · rwa [List.getElem_set_ne hie] at hq
    obtain ⟨m, hm, hmi⟩ := (hg i hlen).2 q hq2
    by_cases hqp : q = p
    · subst hqp
      have hgm : getNodeData g q = m := by rw [getNodeData, hm]; rfl
      refine ⟨GNode.mk (some eid) (getNodeData g q).outEdges,
        Function.update_same _ _ _, ?_⟩
      rw [hgm]
      exact hmi
    · exact ⟨m, by rw [Function.update_noteq hqp]; exact hm, hmi⟩

theorem graphInv_addOut {g : GraphState} (hg : GraphInv g) (eid : Nat)
    (p : String) : GraphInv (stAddOut g eid p).1 := by
  unfold stAddOut
  split
  case isFalse _ => exact hg
  case isTrue heid =>
    by_cases hsome : (getNodeData g p).inEdge.isSome
    · rw [if_pos hsome]
      cases hnp : g.nodes p with
      | none =>
        have hfalse : (getNodeData g p).inEdge = none := by
          rw [getNodeData, hnp]; rfl
        rw [hfalse] at hsome
        exact absurd hsome (by simp)
      | some n0 =>
        have hgm : getNodeData g p = n0 := by rw [getNodeData, hnp]; rfl
        have hupd : Function.update g.nodes p (some (getNodeData g p)) =
            g.nodes := by
          rw [hgm, ← hnp]
          exact Function.update_eq_self p g.nodes
        show GraphInv (GraphState.mk g.edges _)
        rw [hupd]
        exact hg
    · rw [if_neg hsome]
      have hnone : (getNodeData g p).inEdge = none := by
        cases hmatch : (getNodeData g p).inEdge with
        | none => rfl
        | some x => rw [hmatch] at hsome; exact absurd (Option.isSome_some) hsome
      exact graphInv_addOut_success hg eid p heid hnone

theorem graphInv_exec {g : GraphState} (hg : GraphInv g) (op : GraphOp) :
    GraphInv (execOp g op) := by
  cases op with
  | addEdge => exact graphInv_addEdge hg
  | addIn eid p => exact graphInv_addIn hg eid p
  | addOut eid p => exact graphInv_addOut hg eid p

theorem graphInv_foldl :
    ∀ (ops : List GraphOp) (g : GraphState), GraphInv g →
      GraphInv (ops.foldl execOp g) := by
  intro ops
  induction ops with
  | nil => exact fun g hg => hg
  | cons op rest ih =>
    intro g hg
    exact ih (execOp g op) (graphInv_exec hg op)

/-- Claim C6: Every sequence of `State::AddEdge` / `State::AddIn` /
`State::AddOut` calls preserves the graph-link invariants: each output
node points back at its edge through `in_edge`, each input node lists
the edge in `out_edges`; consequently a path is the output of at most
one edge, and `State::AddOut` returns `false` and links nothing when the
named path already has a producing edge. -/
theorem graph_link_invariants :
    (∀ ops : List GraphOp, GraphInv (runOps ops)) ∧
    (∀ (ops : List GraphOp) i j (hi : i < (runOps ops).edges.length)
        (hj : j < (runOps ops).edges.length) p,
      p ∈ ((runOps ops).edges[i]).outputs →
      p ∈ ((runOps ops).edges[j]).outputs → i = j) ∧
    (∀ (g : GraphState) (eid : Nat) (p : String) (n : GNode) (e0 : Nat),
      g.nodes p = some n → n.inEdge = some e0 →
      stAddOut g eid p = (g, false)) := by
  have hinv : ∀ ops : List GraphOp, GraphInv (runOps ops) :=
    fun ops => graphInv_foldl ops emptyGraph graphInv_empty
  refine ⟨hinv, ?_, ?_⟩
  · intro ops i j hi hj p hpi hpj
    obtain ⟨m, hm, hmi⟩ := (hinv ops i hi).1 p hpi
    obtain ⟨m', hm', hmj⟩ := (hinv ops j hj).1 p hpj
    rw [hm] at hm'
    cases hm'
    rw [hmi] at hmj
    exact (Option.some.injEq _ _ ▸ hmj).symm ▸ rfl
  · intro g eid p n e0 hnp hne
    unfold stAddOut
    split
    case isTrue heid =>
      have hgm : getNodeData g p = n := by rw [getNodeData, hnp]; rfl
      rw [hgm, hne]
      simp only [Option.isSome_some, if_true]
      have hupd : Function.update g.nodes p (some n) = g.nodes := by
        rw [← hnp]
        exact Function.update_eq_self p g.nodes
      rw [hupd]
    case isFalse _ => rfl

/-- Witness for C6 at a concrete call sequence: an edge producing `a`
and consuming `b` satisfies the invariants, a duplicate output is
rejected, and two indices producing the same path coincide. -/
theorem graph_link_invariants_witness :
    GraphInv (runOps (GraphOp.addEdge :: GraphOp.addOut 0 "a" ::
      GraphOp.addIn 0 "b" :: [])) ∧
    stAddOut (runOps (GraphOp.addEdge :: GraphOp.addOut 0 "a" :: [])) 0 "a" =
      (runOps (GraphOp.addEdge :: GraphOp.addOut 0 "a" :: []), false) ∧
    (0 : Nat) = 0 :=
  ⟨graph_link_invariants.1 _,
    graph_link_invariants.2.2 _ 0 "a" (GNode.mk (some 0) []) 0 (by decide) rfl,
    graph_link_invariants.2.1 (GraphOp.addEdge :: GraphOp.addOut 0 "a" :: [])
      0 0 (by decide) (by decide) "a" (by decide) (by decide)⟩

theorem foldl_digits_shift (val : Char → Nat) (base : Nat) :
    ∀ (l : List Char) (a : Nat),
      List.foldl (fun a c => a * base + val c) a l =
        a * base ^ l.length + List.foldl (fun a c => a * base + val c) 0 l := by
  intro l
  induction l with
  | nil => intro a; simp
  | cons c cs ih =>
    intro a
    simp only [List.foldl_cons, List.length_cons]
    rw [ih (a * base + val c), ih (0 * base + val c)]
    ring

theorem digitsAux_all (digit : Nat → Char) (base : Nat) (hbase : 1 < base) :
    ∀ fuel n, ∀ c ∈ digitsAux digit base fuel n, ∃ d, d < base ∧ c = digit d := by
  intro fuel
  induction fuel with
  | zero => intro n c hc; simp [digitsAux] at hc
  | succ fuel ih =>
    intro n c hc
    simp only [digitsAux] at hc
    by_cases hn : n = 0
    · rw [if_pos hn] at hc
      simp at hc
    · rw [if_neg hn] at hc
      rcases List.mem_append.mp hc with h | h
      · exact ih (n / base) c h
      · exact ⟨n % base, Nat.mod_lt n (by omega), (List.mem_singleton.mp h)⟩

theorem digitsAux_parse (digit : Nat → Char) (val : Char → Nat) (base : Nat)
    (hbase : 1 < base) (hval : ∀ d < base, val (digit d) = d) :
    ∀ fuel n, n < base ^ fuel →
      parseDigitsAcc val base (digitsAux digit base fuel n) = n := by
  intro fuel
  induction fuel with
  | zero =>
    intro n hn
    rw [pow_zero] at hn
    have hz : n = 0 := by omega
    subst hz
    rfl
  | succ fuel ih =>
    intro n hn
    by_cases hzero : n = 0
    · subst hzero
      simp [digitsAux, parseDigitsAcc]
    · unfold parseDigitsAcc at ih ⊢
      simp only [digitsAux, if_neg hzero, List.foldl_append, List.foldl_cons,
        List.foldl_nil]
      have hdiv : n / base < base ^ fuel := by
        rw [Nat.div_lt_iff_lt_mul (by omega)]
        rwa [← pow_succ]
      rw [ih (n / base) hdiv, hval (n % base) (Nat.mod_lt n (by omega))]
      have hdm := Nat.div_add_mod n base
      have hcm : n / base * base = base * (n / base) := Nat.mul_comm _ _
      omega

theorem parseNat_decRender (n : Nat) :
    parseDigitsAcc decDigitVal 10 (decRender n) = n := by
  unfold decRender
  by_cases hn : n = 0
  · rw [if_pos hn, hn]
    rfl
  · rw [if_neg hn]
    exact digitsAux_parse digitChar decDigitVal 10 (by omega)
      (fun d hd => by interval_cases d <;> decide) n n
      (Nat.lt_pow_self (by omega) n)

theorem parseNat_hexRender (n : Nat) :
    parseDigitsAcc hexDigitVal 16 (hexRender n) = n := by
  unfold hexRender
  by_cases hn : n = 0
  · rw [if_pos hn, hn]
    rfl
  · rw [if_neg hn]
    exact digitsAux_parse hexDigitChar hexDigitVal 16 (by omega)
      (fun d hd => by interval_cases d <;> decide) n n
      (Nat.lt_pow_self (by omega) n)

theorem decRender_digits (n : Nat) :
    ∀ c ∈ decRender n, isDigitChar c = true := by
  unfold decRender
  by_cases hn : n = 0
  · rw [if_pos hn]
    intro c hc
    rw [List.mem_singleton.mp hc]
    decide
  · rw [if_neg hn]
    intro c hc
    obtain ⟨d, hd, rfl⟩ := digitsAux_all digitChar 10 (by omega) n n c hc
    interval_cases d <;> decide

theorem hexRender_digits (n : Nat) :
    ∀ c ∈ hexRender n, isHexDigitChar c = true := by
  unfold hexRender
  by_cases hn : n = 0
  · rw [if_pos hn]
    intro c hc
    rw [List.mem_singleton.mp hc]
    decide
  · rw [if_neg hn]
    intro c hc
    obtain ⟨d, hd, rfl⟩ := digitsAux_all hexDigitChar 16 (by omega) n n c hc
    interval_cases d <;> decide

/-- A character satisfying class `p` differs from any character that
does not. -/
theorem char_class_ne {p : Char → Bool} {c x : Char} (h : p c = true)
    (hx : p x = false) : c ≠ x := by
  intro e
  rw [e, hx] at h
  exact Bool.noConfusion h

theorem isSpaceChar_false_of_digit {c : Char} (h : isDigitChar c = true) :
    isSpaceChar c = false := by
  cases hsc : isSpaceChar c
  · rfl
  · exfalso
    unfold isSpaceChar at hsc
    simp only [Bool.or_eq_true, decide_eq_true_eq] at hsc
    rcases hsc with ((((e | e) | e) | e) | e) | e <;> subst e <;>
      exact absurd h (by decide)

theorem isSpaceChar_false_of_hex {c : Char} (h : isHexDigitChar c = true) :
    isSpaceChar c = false := by
  cases hsc : isSpaceChar c
  · rfl
  · exfalso
    unfold isSpaceChar at hsc
    simp only [Bool.or_eq_true, decide_eq_true_eq] at hsc
    rcases hsc with ((((e | e) | e) | e) | e) | e <;> subst e <;>
      exact absurd h (by decide)

theorem decRender_ne_nil (n : Nat) : decRender n ≠ [] := by
  unfold decRender
  split
  · simp
  · next hn =>
    cases n with
    | zero => exact absurd rfl hn
    | succ m =>
      show digitsAux digitChar 10 (m + 1) (m + 1) ≠ []
      unfold digitsAux
      rw [if_neg (by omega : ¬m + 1 = 0)]
      intro hcontra
      rcases List.append_eq_nil.mp hcontra with ⟨_, h2⟩
      exact List.noConfusion h2

theorem hexRender_ne_nil (n : Nat) : hexRender n ≠ [] := by
  unfold hexRender
  split
  · simp
  · next hn =>
    cases n with
    | zero => exact absurd rfl hn
    | succ m =>
      show digitsAux hexDigitChar 16 (m + 1) (m + 1) ≠ []
      unfold digitsAux
      rw [if_neg (by omega : ¬m + 1 = 0)]
      intro hcontra
      rcases List.append_eq_nil.mp hcontra with ⟨_, h2⟩
      exact List.noConfusion h2

theorem parseDecIntCore_digits (l : List Char)
    (hall : ∀ x ∈ l, isDigitChar x = true) :
    parseDecIntCore l = (parseDigitsAcc decDigitVal 10 l : Nat) := by
  cases l with
  | nil => rfl
  | cons c rest =>
    have hcd : isDigitChar c = true := hall c (List.mem_cons_self c rest)
    simp only [parseDecIntCore]
    rw [if_neg (char_class_ne hcd (by decide : isDigitChar '-' = false)),
      if_neg (char_class_ne hcd (by decide : isDigitChar '+' = false)),
      List.takeWhile_eq_self_iff.mpr hall]

theorem parseDecInt_renderInt (z : Int) : parseDecInt (renderInt z) = z := by
  unfold renderInt parseDecInt
  by_cases hz : z < 0
  · rw [if_pos hz]
    have hds : ('-' :: decRender (-z).toNat).dropWhile isSpaceChar =
        '-' :: decRender (-z).toNat := by
      rw [List.dropWhile_cons, if_neg (by decide)]
    rw [hds]
    simp only [parseDecIntCore, if_true]
    rw [List.takeWhile_eq_self_iff.mpr (decRender_digits (-z).toNat),
      parseNat_decRender]
    omega
  · rw [if_neg hz]
    have hall := decRender_digits z.toNat
    have hds : (decRender z.toNat).dropWhile isSpaceChar =
        decRender z.toNat := by
      cases hr : decRender z.toNat with
      | nil => rfl
      | cons c rest =>
        have hcd : isDigitChar c = true :=
          hall c (hr ▸ List.mem_cons_self c rest)
        rw [List.dropWhile_cons, if_neg (by
          rw [isSpaceChar_false_of_digit hcd]
          simp)]
    rw [hds, parseDecIntCore_digits _ hall, parseNat_decRender]
    omega

theorem parseHexNat_hexRender (n : Nat) : parseHexNat (hexRender n) = n := by
  cases hr : hexRender n with
  | nil => exact absurd hr (hexRender_ne_nil _)
  | cons c rest =>
    have hall : ∀ x ∈ c :: rest, isHexDigitChar x = true :=
      hr ▸ hexRender_digits n
    have hcd : isHexDigitChar c = true := hall c (List.mem_cons_self c rest)
    have hds : (c :: rest).dropWhile isSpaceChar = c :: rest := by
      rw [List.dropWhile_cons, if_neg (by
        rw [isSpaceChar_false_of_hex hcd]
        simp)]
    have hstrip : stripHexPrefix (c :: rest) = c :: rest := by
      cases rest with
      | nil => rfl
      | cons c1 r2 =>
        show (if c = '0' ∧ (c1 = 'x' ∨ c1 = 'X') then r2 else c :: c1 :: r2) =
          c :: c1 :: r2
        have hc1 : isHexDigitChar c1 = true :=
          hall c1 (List.mem_cons_of_mem c (List.mem_cons_self c1 r2))
        rw [if_neg ?hneg]
        case hneg =>
          rintro ⟨-, hx | hx⟩
          · exact char_class_ne hc1 (by decide) hx
          · exact char_class_ne hc1 (by decide) hx
    have hcore : parseHexNat (c :: rest) = n := by
      unfold parseHexNat
      rw [hds, hstrip, List.takeWhile_eq_self_iff.mpr hall, ← hr,
        parseNat_hexRender]
    exact hcore

theorem renderInt_no_tab (z : Int) : '\t' ∉ renderInt z := by
  unfold renderInt
  split
  · intro hmem
    rcases List.mem_cons.mp hmem with e | e
    · exact absurd e (by decide)
    · exact absurd (decRender_digits _ _ e) (by decide)
  · intro hmem
    exact absurd (decRender_digits _ _ hmem) (by decide)

theorem splitFirst_append (sep : Char) :
    ∀ (a b : List Char), sep ∉ a →
      splitFirst sep (a ++ sep :: b) = some (a, b) := by
  intro a
  induction a with
  | nil =>
    intro b _
    simp [splitFirst]
  | cons c cs ih =>
    intro b h
    have hc : ¬c = sep := fun e => h (e ▸ List.mem_cons_self c cs)
    simp only [List.cons_append, splitFirst, if_neg hc, List.append_eq,
      ih b (fun hm => h (List.mem_cons_of_mem c hm)), Option.map_some']

theorem parseLogLine_writeEntry (v : Int) (hv : 5 ≤ v) (e : LogEntry)
    (hwf : WellFormedEntry e) :
    parseLogLine v (writeEntryLine e) = some e := by
  obtain ⟨h1, h2, h3, h4, h5, h6, h7, h8, h9⟩ := hwf
  unfold parseLogLine writeEntryLine
  rw [splitFirst_append '\t' _ _ (renderInt_no_tab e.startTime)]
  simp only [Option.some_bind]
  rw [splitFirst_append '\t' _ _ (renderInt_no_tab e.endTime)]
  simp only [Option.some_bind]
  rw [splitFirst_append '\t' _ _ (renderInt_no_tab e.mtime)]
  simp only [Option.some_bind]
  rw [splitFirst_append '\t' _ _ h8]
  simp only [Option.map_some']
  rw [if_pos hv]
  simp only [parseDecInt_renderInt, parseHexNat_hexRender]

theorem loadGo_records (v : Int) (hv : 5 ≤ v) :
    ∀ (records : List LogEntry) (m : LogEntries) (u t : Nat),
      (∀ e ∈ records, WellFormedEntry e) →
      ∃ flag, loadGo (records.map writeEntryLine) v m u t =
        .loaded (records.foldl (fun m e => upsert m e) m) flag := by
  intro records
  induction records with
  | nil =>
    intro m u t _
    exact ⟨needsRecompact v u t, rfl⟩
  | cons e rs ih =>
    intro m u t hwf
    simp only [List.map_cons, List.foldl_cons]
    have hv0 : ¬v = 0 := by omega
    unfold loadGo
    rw [if_neg hv0]
    unfold loadStep
    rw [parseLogLine_writeEntry v hv e (hwf e (List.mem_cons_self e rs))]
    exact ih (upsert m e) _ _ (fun x hx => hwf x (List.mem_cons_of_mem e hx))

theorem foldl_upsert_lastEntry :
    ∀ (records : List LogEntry) (m : LogEntries) (k : List Char),
      (records.foldl (fun m e => upsert m e) m) k =
        match lastEntryFor records k with
        | some x => some x
        | none => m k := by
  intro records
  induction records with
  | nil =>
    intro m k
    rfl
  | cons e rs ih =>
    intro m k
    simp only [List.foldl_cons]
    rw [ih (upsert m e) k]
    unfold lastEntryFor
    simp only [List.filter_cons]
    by_cases hk : e.output = k
    · rw [if_pos (by simpa using hk)]
      cases hfl : rs.filter (fun x => decide (x.output = k)) with
      | nil =>
        show upsert m e k = _
        unfold upsert
        rw [if_pos hk.symm]
        rfl
      | cons y ys =>
        rw [List.getLast?_cons_cons]
        cases hgl : (y :: ys).getLast? with
        | none =>
          exact absurd (List.getLast?_eq_none_iff.mp hgl) (by simp)
        | some w => rfl
    · rw [if_neg (by simpa using hk)]
      have hup : upsert m e k = m k := by
        unfold upsert
        rw [if_neg (fun hc => hk hc.symm)]
      cases hfl : (rs.filter (fun x => decide (x.output = k))).getLast? with
      | none => simpa [hfl] using hup
      | some w => simp [hfl]

/-- Claim C1: Build-log round-trip: loading a version-5 header followed by
records written with `BuildLog::WriteEntry` yields an `entries_` map
equal to the written collection restricted to the last record per output
path. -/
theorem buildLog_roundTrip (records : List LogEntry)
    (hwf : ∀ e ∈ records, WellFormedEntry e) :
    (∃ flag, loadLines (headerLineV5 :: records.map writeEntryLine) =
      .loaded (records.foldl (fun m e => upsert m e) emptyEntries) flag) ∧
    (∀ k, records.foldl (fun m e => upsert m e) emptyEntries k =
      lastEntryFor records k) := by
  constructor
  · show ∃ flag, loadGo (headerLineV5 :: records.map writeEntryLine)
      0 emptyEntries 0 0 = _
    unfold loadGo
    rw [if_pos rfl]
    have hpv : parseVersionLine headerLineV5 = 5 := by decide
    simp only [hpv]
    rw [if_neg (by decide)]
    have hpl : parseLogLine 5 headerLineV5 = none := by decide
    have hhdr : loadStep 5 emptyEntries 0 0 headerLineV5 =
        (emptyEntries, 0, 0) := by
      unfold loadStep
      rw [hpl]
    rw [hhdr]
    exact loadGo_records 5 (by decide) records emptyEntries 0 0 hwf
  · intro k
    rw [foldl_upsert_lastEntry records emptyEntries k]
    cases lastEntryFor records k with
    | none => rfl
    | some w => rfl

/-- Witness for C1 at a concrete record list with a repeated output
path. -/
theorem buildLog_roundTrip_witness :
    (∃ flag, loadLines (headerLineV5 ::
      (LogEntry.mk ('o' :: 'u' :: 't' :: []) 51966 5 10 12345 ::
        LogEntry.mk ('m' :: 'i' :: 'd' :: []) 3 (-2) 7 (-8) ::
        LogEntry.mk ('o' :: 'u' :: 't' :: []) 0 100 200 0 :: []).map
        writeEntryLine) =
      .loaded ((LogEntry.mk ('o' :: 'u' :: 't' :: []) 51966 5 10 12345 ::
        LogEntry.mk ('m' :: 'i' :: 'd' :: []) 3 (-2) 7 (-8) ::
        LogEntry.mk ('o' :: 'u' :: 't' :: []) 0 100 200 0 :: []).foldl
          (fun m e => upsert m e) emptyEntries) flag) ∧
    (∀ k, ((LogEntry.mk ('o' :: 'u' :: 't' :: []) 51966 5 10 12345 ::
        LogEntry.mk ('m' :: 'i' :: 'd' :: []) 3 (-2) 7 (-8) ::
        LogEntry.mk ('o' :: 'u' :: 't' :: []) 0 100 200 0 :: []).foldl
          (fun m e => upsert m e) emptyEntries) k =
      lastEntryFor (LogEntry.mk ('o' :: 'u' :: 't' :: []) 51966 5 10 12345 ::
        LogEntry.mk ('m' :: 'i' :: 'd' :: []) 3 (-2) 7 (-8) ::
        LogEntry.mk ('o' :: 'u' :: 't' :: []) 0 100 200 0 :: []) k) :=
  buildLog_roundTrip _ (by decide)

/-- Claim C3: A log file whose version line parses below
`kOldestSupportedVersion = 4` makes `BuildLog::Load` unlink the file and
return `LOAD_SUCCESS` with an empty `entries_` map. -/
theorem buildLog_load_old_version (line : List Char) (rest : List (List Char))
    (hv : parseVersionLine line < kOldestSupportedVersion) :
    loadLines (line :: rest) = .reset ∧
    (loadLines (line :: rest)).entriesOf = emptyEntries ∧
    (loadLines (line :: rest)).deletedFile = true := by
  have h1 : loadLines (line :: rest) = .reset := by
    show loadGo (line :: rest) 0 emptyEntries 0 0 = .reset
    unfold loadGo
    rw [if_pos rfl, if_pos hv]
  exact ⟨h1, by rw [h1]; rfl, by rw [h1]; rfl⟩

/-- Witness for C3: a `# ninja log v3` header resets the log. -/
theorem buildLog_load_old_version_witness :
    parseVersionLine (headerPrefix ++ ['3']) < kOldestSupportedVersion ∧
    loadLines ((headerPrefix ++ ['3']) :: []) = LoadOutcome.reset :=
  ⟨by decide, (buildLog_load_old_version (headerPrefix ++ ['3']) []
    (by decide)).1⟩

end Snb
